import Mathlib

/-!
Verification of the text-classification engine of the `nau-course-scraping`
repository.  The Python modules `ai_analysis_broad.py`, `ethics_filter.py`
and `ethics_analysis.py` are embedded shallowly: regular expressions over
word-boundary literal phrases become explicit alternative lists searched at
word boundaries, pandas batch steps become list transforms, and the external
`thefuzz.fuzz.partial_ratio` scorer is an explicit function parameter.
-/

/-! ## Character-level helpers (model of Python `re` over ASCII text) -/

/-- Word characters for the regex `\b` boundary (Python `\w` restricted to
the ASCII range actually exercised by the course data). -/
def isWordChar (c : Char) : Bool :=
  c.isAlpha || c.isDigit || c = '_'

/-- Character class `[a-z0-9]` used by `NON_ALNUM_RE` in
`ai_analysis_broad.py` (the regex is applied after lower-casing). -/
def isLowerAlnum (c : Char) : Bool :=
  (97 ≤ c.toNat && c.toNat ≤ 122) || (48 ≤ c.toNat && c.toNat ≤ 57)

/-- Does the position after a candidate match satisfy `\b`?  True at end of
input or when the next character is not a word character. -/
def boundaryAfter : List Char → Bool
  | [] => true
  | c :: _ => !isWordChar c

/-- Does the literal alternative `alt` match at the head of `cs`, with a
word boundary after it? -/
def matchesHere (alt : List Char) (cs : List Char) : Bool :=
  alt.isPrefixOf cs && boundaryAfter (cs.drop alt.length)

/-- Scan of `re.search` for the literal alternative `alt` wrapped in
`\b...\b`: try every position; a position is eligible when the previous
character (tracked in `prevIsWord`) is not a word character. -/
def searchFrom (alt : List Char) (prevIsWord : Bool) : List Char → Bool
  | [] => (!prevIsWord) && matchesHere alt []
  | c :: rest =>
    ((!prevIsWord) && matchesHere alt (c :: rest)) || searchFrom alt (isWordChar c) rest

/-- Model of `re.search` for a pattern of the form `\b(a₁|…|aₖ)\b` given by
its literal alternatives: true iff some alternative occurs at word
boundaries in `text`. -/
def reSearch (alts : List String) (text : List Char) : Bool :=
  alts.any (fun a => searchFrom a.data false text)

/-! ## `normalize_text` (from `ai_analysis_broad.py`) -/

/-- Model of `NON_ALNUM_RE.sub(" ", lowered)`: every maximal run of
characters outside `[a-z0-9]` is replaced by a single space (the space is
emitted at the last character of each run). -/
def subNonAlnum : List Char → List Char
  | [] => []
  | [c] => if isLowerAlnum c then [c] else [' ']
  | c :: d :: cs =>
    if isLowerAlnum c then c :: subNonAlnum (d :: cs)
    else if isLowerAlnum d then ' ' :: subNonAlnum (d :: cs)
    else subNonAlnum (d :: cs)

/-- One step of Python `str.split()`, consuming one character in a right
fold: a whitespace character closes the current piece; any other character
is prepended to the current piece. -/
def splitStep (c : Char) : List (List Char) → List (List Char)
  | [] => if c.isWhitespace then [[]] else [[c]]
  | t :: ts => if c.isWhitespace then [] :: t :: ts else (c :: t) :: ts

/-- Model of Python `str.split()`: split on whitespace runs, dropping empty
pieces. -/
def splitWs (cs : List Char) : List (List Char) :=
  (cs.foldr splitStep [[]]).filter (fun t => !t.isEmpty)

/-- Tail of `" ".join(pieces)`: every remaining piece is preceded by one
space. -/
def joinSpTail : List (List Char) → List Char
  | [] => []
  | t :: ts => ' ' :: (t ++ joinSpTail ts)

/-- Model of `" ".join(pieces)`. -/
def joinSp : List (List Char) → List Char
  | [] => []
  | t :: ts => t ++ joinSpTail ts

/-- Character-list core of `normalize_text`: lower-case, collapse non
alphanumeric runs to single spaces, then split and re-join on single
spaces. -/
def normChars (cs : List Char) : List Char :=
  joinSp (splitWs (subNonAlnum (cs.map Char.toLower)))

/-- Embedding of `normalize_text` from `ai_analysis_broad.py`:
`" ".join(NON_ALNUM_RE.sub(" ", text.lower()).split())`. -/
def normalize_text (s : String) : String :=
  ⟨normChars s.data⟩

/-! ## Fuzzy scoring (from `ai_analysis_broad.py`)

The similarity scorer `thefuzz.fuzz.partial_ratio` is an external library,
so it enters the embedding as an explicit function parameter `scorefn`;
everything the repository itself does with the score is embedded. -/

/-- Python `max` over a list: the first element is the initial accumulator.
Python raises `ValueError` on an empty list; the model returns 0 there
(the repository always calls it with a fixed non-empty phrase list). -/
def listMax : List Int → Int
  | [] => 0
  | x :: xs => xs.foldl max x

/-- Embedding of `max_fuzzy_score`: 0 for empty normalized text without
consulting `scorefn` or `phrases`, otherwise the maximum score of the text
against each phrase. -/
def max_fuzzy_score (scorefn : String → String → Int) (text_norm : String)
    (phrases : List String) : Int :=
  if text_norm = "" then 0
  else listMax (phrases.map (fun phrase => scorefn text_norm phrase))

/-- The per-record fuzzy decision made in `main`:
`max_fuzzy_score(text, fuzzy_phrases) >= args.fuzzy_threshold`. -/
def fuzzyDecision (scorefn : String → String → Int) (text_norm : String)
    (phrases : List String) (threshold : Int) : Bool :=
  max_fuzzy_score scorefn text_norm phrases ≥ threshold

/-! ## Rule patterns of `ai_analysis_broad.py`

Each regex `\b...\b` of `BROAD_PATTERNS` is represented by its label and
the list of literal alternatives generated by its optional groups, e.g.
`\bexpert systems?\b` becomes `["expert system", "expert systems"]`. -/

def BROAD_PATTERNS : List (String × List String) := [
  ("artificial_intelligence", ["artificial intelligence"]),
  ("ai", ["ai"]),
  ("machine_learning", ["machine learning"]),
  ("deep_learning", ["deep learning"]),
  ("generative_ai", ["generative ai"]),
  ("llm", ["large language model", "large language models"]),
  ("llm", ["llm"]),
  ("gpt", ["gpt"]),
  ("chatgpt", ["chatgpt"]),
  ("neural_network", ["neural network", "neural networks"]),
  ("reinforcement_learning", ["reinforcement learning"]),
  ("nlp", ["natural language processing"]),
  ("nlp", ["nlp"]),
  ("computer_vision", ["computer vision"]),
  ("machine_vision", ["machine vision"]),
  ("image_processing", ["image processing"]),
  ("pattern_recognition", ["pattern recognition"]),
  ("data_mining", ["data mining"]),
  ("information_retrieval", ["information retrieval"]),
  ("expert_systems", ["expert system", "expert systems"]),
  ("knowledge_representation", ["knowledge representation"]),
  ("intelligent_systems", ["intelligent system", "intelligent systems"]),
  ("intelligent_agents", ["intelligent agent", "intelligent agents"]),
  ("autonomous_systems", ["autonomous system", "autonomous systems"]),
  ("autonomous", ["autonomous"]),
  ("robotics", ["robotic", "robotics"]),
  ("computational_intelligence", ["computational intelligence"]),
  ("speech_recognition", ["speech recognition"]),
  ("recommendation_systems", ["recommendation system", "recommendation systems"]),
  ("recommender_systems", ["recommender system", "recommender systems"]),
  ("decision_support", ["decision support"]),
  ("intelligent_control", ["intelligent control"]),
  ("data_science", ["data science"])]

/-- The fuzzy phrase list `BROAD_FUZZY_PHRASES`. -/
def BROAD_FUZZY_PHRASES : List String := [
  "artificial intelligence",
  "machine learning",
  "deep learning",
  "generative ai",
  "large language model",
  "neural network",
  "reinforcement learning",
  "natural language processing",
  "computer vision",
  "pattern recognition",
  "data mining",
  "information retrieval",
  "expert systems",
  "knowledge representation",
  "intelligent systems",
  "intelligent agent",
  "autonomous systems",
  "computational intelligence",
  "speech recognition",
  "recommendation systems",
  "recommender systems",
  "decision support",
  "intelligent control",
  "data science"]

/-! ## Per-record pipeline of `main` in `ai_analysis_broad.py` -/

/-- One input row of the course CSV.  The column `prefix` is called `pfx`
here because its Python name is not a legal Lean identifier. -/
structure CourseRow where
  pfx : String
  num : String
  title : String
  description : String
deriving DecidableEq, Repr

/-- The natural key `(prefix, number)` of a row. -/
def rowKey (r : CourseRow) : String × String :=
  (r.pfx, r.num)

/-- The combined text `titles + " " + descriptions` built in `main`. -/
def rowText (r : CourseRow) : String :=
  r.title ++ " " ++ r.description

/-- The normalized combined text, `text_series.map(normalize_text)`. -/
def rowTextNorm (r : CourseRow) : String :=
  normalize_text (rowText r)

/-- Labels of the patterns matching a normalized text:
`[label for label, rx in compiled if rx.search(text_norm)]`. -/
def ruleHits (text_norm : String) : List String :=
  (BROAD_PATTERNS.filter (fun p => reSearch p.2 text_norm.data)).map (fun p => p.1)

/-- Python `sorted(set(hits))`: the duplicate-free labels in increasing
lexicographic order. -/
def sortedDedup (hits : List String) : List String :=
  hits.dedup.insertionSort (· ≤ ·)

/-- Python `",".join(pieces)`. -/
def joinComma : List String → String
  | [] => ""
  | [s] => s
  | s :: s2 :: rest => s ++ "," ++ joinComma (s2 :: rest)

/-- The reason string of one record:
`",".join(sorted(set(hits))) if hits else ""`. -/
def ruleReason (text_norm : String) : String :=
  let hits := ruleHits text_norm
  if hits.isEmpty then "" else joinComma (sortedDedup hits)

/-- The rule-only match flag of one record, `bool(hits)`. -/
def rowMatched (r : CourseRow) : Bool :=
  !(ruleHits (rowTextNorm r)).isEmpty

/-- The fuzzy flag of one record when fuzzy matching is enabled. -/
def rowFuzzy (scorefn : String → String → Int) (phrases : List String)
    (threshold : Int) (r : CourseRow) : Bool :=
  fuzzyDecision scorefn (rowTextNorm r) phrases threshold

/-- The final `is_ai_candidate` flag: `m or f`, where `f` is the constant
`False` column when `--disable-fuzzy` is passed. -/
def rowFlag (disableFuzzy : Bool) (scorefn : String → String → Int)
    (phrases : List String) (threshold : Int) (r : CourseRow) : Bool :=
  rowMatched r || (if disableFuzzy then false else rowFuzzy scorefn phrases threshold r)

/-! ## Filter / deduplicate / sort (the `subset` views)

Both `ai_analysis_broad.py` and `ethics_analysis.py` end with
`df[df[flag]].drop_duplicates(subset=["prefix", "number"]).sort_values(["prefix", "number"])`. -/

/-- `drop_duplicates(subset=["prefix", "number"])`: keep the first row of
each key. -/
def dedupByKey (seen : List (String × String)) : List CourseRow → List CourseRow
  | [] => []
  | r :: rs =>
    if rowKey r ∈ seen then dedupByKey seen rs
    else r :: dedupByKey (rowKey r :: seen) rs

/-- Lexicographic order on `(prefix, number)` used by
`sort_values(["prefix", "number"])`. -/
def keyRel (a b : CourseRow) : Prop :=
  a.pfx < b.pfx ∨ (a.pfx = b.pfx ∧ a.num ≤ b.num)

instance : DecidableRel keyRel := fun a b => by
  unfold keyRel; infer_instance

instance : IsTotal CourseRow keyRel where
  total a b := by
    rcases lt_trichotomy a.pfx b.pfx with h | h | h
    · exact Or.inl (Or.inl h)
    · rcases le_total a.num b.num with h2 | h2
      · exact Or.inl (Or.inr ⟨h, h2⟩)
      · exact Or.inr (Or.inr ⟨h.symm, h2⟩)
    · exact Or.inr (Or.inl h)

instance : IsTrans CourseRow keyRel where
  trans a b c hab hbc := by
    rcases hab with h1 | ⟨e1, n1⟩
    · rcases hbc with h2 | ⟨e2, _⟩
      · exact Or.inl (h1.trans h2)
      · exact Or.inl (e2 ▸ h1)
    · rcases hbc with h2 | ⟨e2, n2⟩
      · exact Or.inl (e1 ▸ h2)
      · exact Or.inr ⟨e1.trans e2, n1.trans n2⟩

/-- The filtered subset view: filter by the flag, deduplicate by the
`(prefix, number)` key keeping first occurrences, sort by the key. -/
def subsetRows (flag : CourseRow → Bool) (rows : List CourseRow) : List CourseRow :=
  ((rows.filter flag |> dedupByKey []).insertionSort keyRel)

/-! ## Ethics matcher of `ethics_filter.py`

The ethics regexes run on the raw title/description with `re.IGNORECASE`;
the embedding lower-cases the subject text and keeps the lower-case
literal alternatives.  Note `\bethical responsibilities?\b` only makes the
final `s` optional, so its alternatives are `ethical responsibilitie` and
`ethical responsibilities`. -/

/-- Model of `re.search` under `re.IGNORECASE`: case-fold the subject. -/
def searchCI (alts : List String) (text : String) : Bool :=
  reSearch alts (text.data.map Char.toLower)

namespace EthicsFilter

/-- Alternatives of `TITLE_PATTERNS` in `ethics_filter.py`. -/
def TITLE_PATTERNS : List (List String) := [
  ["ethic", "ethics", "ethical"],
  ["bioethic", "bioethics", "bioethical"],
  ["cyberethic", "cyberethics", "cyberethical"]]

/-- Alternatives of `DESCRIPTION_PATTERNS` in `ethics_filter.py`. -/
def DESCRIPTION_PATTERNS : List (List String) := [
  ["professional ethics"],
  ["ethical decision-making", "ethical decision making"],
  ["ethical issue", "ethical issues"],
  ["ethics and"],
  ["ethics of"],
  ["ethics in"],
  ["research ethics"],
  ["ethical standard", "ethical standards"],
  ["ethical responsibilitie", "ethical responsibilities"],
  ["health care ethics"],
  ["environmental ethics"],
  ["bioethic", "bioethics", "bioethical"],
  ["cyberethic", "cyberethics", "cyberethical"],
  ["code of ethics"]]

/-- The frozen dataclass `EthicsMatcher` of `ethics_filter.py`. -/
structure EthicsMatcher where
  title_patterns : List (List String)
  description_patterns : List (List String)
deriving DecidableEq, Repr

/-- `EthicsMatcher.build(include_description)`: the description patterns
are dropped when `include_description` is false. -/
def EthicsMatcher.build (include_description : Bool) : EthicsMatcher :=
  { title_patterns := TITLE_PATTERNS,
    description_patterns :=
      if include_description then DESCRIPTION_PATTERNS else [] }

/-- `EthicsMatcher.is_match` of `ethics_filter.py`: a title-pattern match
wins immediately; otherwise an empty description-pattern set returns
false; otherwise the description patterns are searched. -/
def EthicsMatcher.is_match (m : EthicsMatcher)
    (title description : Option String) : Bool :=
  let title_text := title.getD ""
  let description_text := description.getD ""
  if m.title_patterns.any (fun p => searchCI p title_text) then true
  else if m.description_patterns.isEmpty then false
  else m.description_patterns.any (fun p => searchCI p description_text)

end EthicsFilter

namespace EthicsAnalysis

/-- Alternatives of `TITLE_PATTERNS` in `ethics_analysis.py` (textually
identical to the list in `ethics_filter.py`). -/
def TITLE_PATTERNS : List (List String) := [
  ["ethic", "ethics", "ethical"],
  ["bioethic", "bioethics", "bioethical"],
  ["cyberethic", "cyberethics", "cyberethical"]]

/-- Alternatives of `DESCRIPTION_PATTERNS` in `ethics_analysis.py`
(textually identical to the list in `ethics_filter.py`). -/
def DESCRIPTION_PATTERNS : List (List String) := [
  ["professional ethics"],
  ["ethical decision-making", "ethical decision making"],
  ["ethical issue", "ethical issues"],
  ["ethics and"],
  ["ethics of"],
  ["ethics in"],
  ["research ethics"],
  ["ethical standard", "ethical standards"],
  ["ethical responsibilitie", "ethical responsibilities"],
  ["health care ethics"],
  ["environmental ethics"],
  ["bioethic", "bioethics", "bioethical"],
  ["cyberethic", "cyberethics", "cyberethical"],
  ["code of ethics"]]

/-- The frozen dataclass `EthicsMatcher` of `ethics_analysis.py`. -/
structure EthicsMatcher where
  title_patterns : List (List String)
  description_patterns : List (List String)
deriving DecidableEq, Repr

/-- `EthicsMatcher.build()` of `ethics_analysis.py`: both pattern sets are
always compiled. -/
def EthicsMatcher.build : EthicsMatcher :=
  { title_patterns := TITLE_PATTERNS,
    description_patterns := DESCRIPTION_PATTERNS }

/-- `EthicsMatcher.is_match` of `ethics_analysis.py`: any title-pattern
match on the title, else any description-pattern match on the
description. -/
def EthicsMatcher.is_match (m : EthicsMatcher)
    (title description : Option String) : Bool :=
  let title_text := title.getD ""
  let description_text := description.getD ""
  if m.title_patterns.any (fun p => searchCI p title_text) then true
  else m.description_patterns.any (fun p => searchCI p description_text)

end EthicsAnalysis

/-! ## Tiered AI keyword matcher (spec-modelled)

The repository's tests import a module `ai_analysis.py` defining
`PRIMARY_PATTERNS`, `SECONDARY_PATTERNS`, `CONTEXT_PATTERNS`,
`compile_patterns`, `matches_any` and `normalize_text`; that module is not
among the available sources, so its rule tiers are modelled from the
specification's wording. -/

namespace AiAnalysis

/-- Modelled from the spec: the primary tier of `ai_analysis.py` (module
missing from the sources) — patterns whose match alone classifies
positive, such as explicit AI phrases. -/
def PRIMARY_PATTERNS : List (List String) := [
  ["artificial intelligence"],
  ["machine learning"]]

/-- Modelled from the spec: the secondary tier of `ai_analysis.py` (module
missing from the sources) — broad terms such as "autonomous" and
"data science" that require a co-occurring context match; "ethics" is
included to reflect the spec's gating example "Ethics in Technology". -/
def SECONDARY_PATTERNS : List (List String) := [
  ["autonomous"],
  ["data science"],
  ["ethics"]]

/-- Modelled from the spec: the context tier of `ai_analysis.py` (module
missing from the sources) — AI-context signals such as "artificial
intelligence", "machine learning" and "ai". -/
def CONTEXT_PATTERNS : List (List String) := [
  ["artificial intelligence"],
  ["machine learning"],
  ["ai"]]

/-- Modelled from the spec: `matches_any(text_norm, patterns)` of
`ai_analysis.py` — does any compiled pattern match the normalized text. -/
def matches_any (text_norm : String) (patterns : List (List String)) : Bool :=
  patterns.any (fun alts => reSearch alts text_norm.data)

/-- Modelled from the spec: the AI keyword classification of
`ai_analysis.py`, as exercised by the repository's tests — primary match
on the combined normalized text, or a secondary match gated by a context
match. -/
def keyword_match (title description : String) : Bool :=
  let text_norm := normalize_text (title ++ " " ++ description)
  matches_any text_norm PRIMARY_PATTERNS ||
    (matches_any text_norm SECONDARY_PATTERNS &&
      matches_any text_norm CONTEXT_PATTERNS)

end AiAnalysis

/-! ## Helper lemmas -/

theorem dedupByKey_subset (seen : List (String × String)) :
    ∀ (l : List CourseRow), ∀ r ∈ dedupByKey seen l, r ∈ l := by
  intro l
  induction l generalizing seen with
  | nil => intro r hr; simp [dedupByKey] at hr
  | cons a l ih =>
    intro r hr
    rw [dedupByKey] at hr
    by_cases h : rowKey a ∈ seen
    · rw [if_pos h] at hr
      exact List.mem_cons_of_mem a (ih seen r hr)
    · rw [if_neg h] at hr
      rcases List.mem_cons.mp hr with h1 | h1
      · exact h1 ▸ List.mem_cons_self a l
      · exact List.mem_cons_of_mem a (ih _ r h1)

theorem exists_key_dedupByKey (k : String × String) :
    ∀ (l : List CourseRow) (seen : List (String × String)),
      (∃ r ∈ dedupByKey seen l, rowKey r = k) ↔
        (k ∉ seen ∧ ∃ r ∈ l, rowKey r = k) := by
  intro l
  induction l with
  | nil => intro seen; simp [dedupByKey]
  | cons a l ih =>
    intro seen
    rw [dedupByKey]
    by_cases h : rowKey a ∈ seen
    · rw [if_pos h, ih seen]
      constructor
      · rintro ⟨hk, r, hr, hrk⟩
        exact ⟨hk, r, List.mem_cons_of_mem a hr, hrk⟩
      · rintro ⟨hk, r, hr, hrk⟩
        rcases List.mem_cons.mp hr with h1 | h1
        · exact absurd ((h1 ▸ hrk : rowKey a = k) ▸ h) hk
        · exact ⟨hk, r, h1, hrk⟩
    · rw [if_neg h]
      constructor
      · intro hex
        rcases hex with ⟨r, hr, hrk⟩
        rcases List.mem_cons.mp hr with h1 | h1
        · have hak : rowKey a = k := by rw [← h1]; exact hrk
          exact ⟨hak ▸ h, a, List.mem_cons_self a l, hak⟩
        · rcases (ih _).mp ⟨r, h1, hrk⟩ with ⟨hk, r', hr', hrk'⟩
          exact ⟨fun hks => hk (List.mem_cons_of_mem _ hks), r',
            List.mem_cons_of_mem a hr', hrk'⟩
      · rintro ⟨hk, r, hr, hrk⟩
        rcases List.mem_cons.mp hr with h1 | h1
        · exact ⟨a, List.mem_cons_self _ _, by rw [← h1]; exact hrk⟩
        · by_cases hak : rowKey a = k
          · exact ⟨a, List.mem_cons_self _ _, hak⟩
          · have hk2 : k ∉ rowKey a :: seen := by
              intro hmem
              rcases List.mem_cons.mp hmem with he | he
              · exact hak he.symm
              · exact hk he
            rcases (ih (rowKey a :: seen)).mpr ⟨hk2, r, h1, hrk⟩ with ⟨r', hr', hrk'⟩
            exact ⟨r', List.mem_cons_of_mem a hr', hrk'⟩

theorem pairwise_keys_dedupByKey :
    ∀ (l : List CourseRow) (seen : List (String × String)),
      (dedupByKey seen l).Pairwise (fun a b => rowKey a ≠ rowKey b) ∧
        ∀ r ∈ dedupByKey seen l, rowKey r ∉ seen := by
  intro l
  induction l with
  | nil => intro seen; simp [dedupByKey]
  | cons a l ih =>
    intro seen
    rw [dedupByKey]
    by_cases h : rowKey a ∈ seen
    · rw [if_pos h]; exact ih seen
    · rw [if_neg h]
      obtain ⟨hpw, hseen⟩ := ih (rowKey a :: seen)
      refine ⟨List.pairwise_cons.mpr ⟨fun b hb => ?_, hpw⟩, ?_⟩
      · intro hab
        exact hseen b hb (hab ▸ List.mem_cons_self _ _)
      · intro r hr
        rcases List.mem_cons.mp hr with h1 | h1
        · exact h1 ▸ h
        · exact fun hrs => hseen r h1 (List.mem_cons_of_mem _ hrs)

theorem mem_sortedDedup {s : String} {hits : List String} :
    s ∈ sortedDedup hits ↔ s ∈ hits :=
  (List.mem_insertionSort _).trans List.mem_dedup

theorem pairwise_lt_sortedDedup (hits : List String) :
    (sortedDedup hits).Pairwise (· < ·) := by
  have hsorted : (sortedDedup hits).Pairwise (· ≤ ·) :=
    List.sorted_insertionSort (· ≤ ·) hits.dedup
  have hnodup : (sortedDedup hits).Nodup :=
    ((List.perm_insertionSort (· ≤ ·) hits.dedup).nodup_iff).mpr hits.nodup_dedup
  exact (hsorted.and hnodup).imp fun h => lt_of_le_of_ne h.1 h.2

theorem ruleReason_eq_joinComma (text_norm : String) :
    ruleReason text_norm = joinComma (sortedDedup (ruleHits text_norm)) := by
  unfold ruleReason
  by_cases h : (ruleHits text_norm).isEmpty = true
  · rw [if_pos h]
    rw [List.isEmpty_iff] at h
    rw [h]
    rfl
  · rw [if_neg h]

theorem joinComma_ne_empty :
    ∀ (l : List String), (∀ s ∈ l, s ≠ "") → l ≠ [] → joinComma l ≠ "" := by
  intro l hne hl
  match l with
  | [] => exact absurd rfl hl
  | [s] => exact hne s (List.mem_singleton_self s)
  | s :: s2 :: rest =>
    intro heq
    have hlen := congrArg String.length heq
    rw [joinComma, String.length_append, String.length_append] at hlen
    have h1 : String.length "," = 1 := rfl
    have h0 : String.length "" = 0 := rfl
    omega

theorem ruleHits_ne_empty_label (text_norm : String) :
    ∀ s ∈ ruleHits text_norm, s ≠ "" := by
  intro s hs
  rcases List.mem_map.mp hs with ⟨p, hp, hps⟩
  have hsub : p ∈ BROAD_PATTERNS := List.mem_of_mem_filter hp
  have hlab : ∀ q ∈ BROAD_PATTERNS, q.1 ≠ "" := by decide
  exact hps ▸ hlab p hsub

theorem ruleReason_empty_iff (text_norm : String) :
    ruleReason text_norm = "" ↔ ruleHits text_norm = [] := by
  constructor
  · intro h
    by_contra hne
    rcases List.exists_mem_of_ne_nil _ hne with ⟨x, hx⟩
    have hmem : x ∈ sortedDedup (ruleHits text_norm) := mem_sortedDedup.mpr hx
    have hdd : sortedDedup (ruleHits text_norm) ≠ [] := List.ne_nil_of_mem hmem
    have hlabels : ∀ s ∈ sortedDedup (ruleHits text_norm), s ≠ "" :=
      fun s hs => ruleHits_ne_empty_label text_norm s (mem_sortedDedup.mp hs)
    exact joinComma_ne_empty _ hlabels hdd ((ruleReason_eq_joinComma text_norm) ▸ h)
  · intro h
    unfold ruleReason
    rw [h]
    rfl

/-! ### Idempotence of `normalize_text` -/

theorem isLowerAlnum_toLower {c : Char} (h : isLowerAlnum c = true) :
    c.toLower = c := by
  simp only [isLowerAlnum, Bool.or_eq_true, Bool.and_eq_true, decide_eq_true_eq] at h
  simp only [Char.toLower]
  rw [if_neg]
  omega

theorem isLowerAlnum_not_ws {c : Char} (h : isLowerAlnum c = true) :
    c.isWhitespace = false := by
  simp only [isLowerAlnum, Bool.or_eq_true, Bool.and_eq_true, decide_eq_true_eq] at h
  simp only [Char.isWhitespace, Bool.or_eq_false_iff, decide_eq_false_iff_not]
  refine ⟨⟨⟨?_, ?_⟩, ?_⟩, ?_⟩ <;> intro he <;> subst he <;> exact absurd h (by decide)

theorem mem_subNonAlnum :
    ∀ (l : List Char), ∀ c ∈ subNonAlnum l, isLowerAlnum c = true ∨ c = ' '
  | [] => by simp [subNonAlnum]
  | [d] => by
    intro c hc
    by_cases h : isLowerAlnum d = true
    · simp only [subNonAlnum, if_pos h, List.mem_singleton] at hc
      exact Or.inl (hc ▸ h)
    · simp only [subNonAlnum, if_neg h, List.mem_singleton] at hc
      exact Or.inr hc
  | c0 :: d :: cs => by
    intro c hc
    by_cases h1 : isLowerAlnum c0 = true
    · simp only [subNonAlnum, if_pos h1, List.mem_cons] at hc
      rcases hc with hc | hc
      · exact Or.inl (hc ▸ h1)
      · exact mem_subNonAlnum (d :: cs) c hc
    · by_cases h2 : isLowerAlnum d = true
      · simp only [subNonAlnum, if_neg h1, if_pos h2, List.mem_cons] at hc
        rcases hc with hc | hc
        · exact Or.inr hc
        · exact mem_subNonAlnum (d :: cs) c hc
      · simp only [subNonAlnum, if_neg h1, if_neg h2] at hc
        exact mem_subNonAlnum (d :: cs) c hc

theorem splitStep_ne_nil (c : Char) (acc : List (List Char)) :
    splitStep c acc ≠ [] := by
  match acc with
  | [] =>
    simp only [splitStep]
    by_cases hw : c.isWhitespace = true
    · rw [if_pos hw]; exact List.cons_ne_nil _ _
    · rw [if_neg hw]; exact List.cons_ne_nil _ _
  | t :: ts =>
    simp only [splitStep]
    by_cases hw : c.isWhitespace = true
    · rw [if_pos hw]; exact List.cons_ne_nil _ _
    · rw [if_neg hw]; exact List.cons_ne_nil _ _

theorem foldrSplit_ne_nil : ∀ (l : List Char), l.foldr splitStep [[]] ≠ []
  | [] => List.cons_ne_nil _ _
  | c :: l => by
    rw [List.foldr_cons]
    exact splitStep_ne_nil c _

theorem mem_foldrSplit :
    ∀ (l : List Char), ∀ t ∈ l.foldr splitStep [[]], ∀ c ∈ t,
      c ∈ l ∧ c.isWhitespace = false
  | [] => by
    intro t ht c hc
    simp only [List.foldr_nil, List.mem_singleton] at ht
    subst ht
    exact absurd hc (List.not_mem_nil c)
  | c0 :: l => by
    intro t ht c hc
    rw [List.foldr_cons] at ht
    cases hR : l.foldr splitStep [[]] with
    | nil => exact absurd hR (foldrSplit_ne_nil l)
    | cons t0 ts0 =>
      rw [hR] at ht
      simp only [splitStep] at ht
      by_cases hw : c0.isWhitespace = true
      · rw [if_pos hw] at ht
        rcases List.mem_cons.mp ht with h1 | h1
        · subst h1; exact absurd hc (List.not_mem_nil c)
        · obtain ⟨hmem, hws⟩ := mem_foldrSplit l t (hR ▸ h1) c hc
          exact ⟨List.mem_cons_of_mem c0 hmem, hws⟩
      · rw [if_neg hw] at ht
        have hwf : c0.isWhitespace = false := by
          cases hx : c0.isWhitespace
          · rfl
          · exact absurd hx hw
        rcases List.mem_cons.mp ht with h1 | h1
        · subst h1
          rcases List.mem_cons.mp hc with h2 | h2
          · subst h2; exact ⟨List.mem_cons_self _ _, hwf⟩
          · obtain ⟨hmem, hws⟩ :=
              mem_foldrSplit l t0 (hR ▸ List.mem_cons_self t0 ts0) c h2
            exact ⟨List.mem_cons_of_mem c0 hmem, hws⟩
        · obtain ⟨hmem, hws⟩ :=
            mem_foldrSplit l t (hR ▸ List.mem_cons_of_mem t0 h1) c hc
          exact ⟨List.mem_cons_of_mem c0 hmem, hws⟩

theorem splitWs_good (l : List Char)
    (hl : ∀ c ∈ l, isLowerAlnum c = true ∨ c = ' ') :
    ∀ t ∈ splitWs l, t ≠ [] ∧ ∀ c ∈ t, isLowerAlnum c = true := by
  intro t ht
  unfold splitWs at ht
  obtain ⟨hfold, hkeep⟩ := List.mem_filter.mp ht
  refine ⟨by simpa using hkeep, ?_⟩
  intro c hc
  obtain ⟨hmem, hws⟩ := mem_foldrSplit l t hfold c hc
  rcases hl c hmem with h | h
  · exact h
  · subst h; simp at hws

theorem mem_joinSpTail :
    ∀ (ts : List (List Char)), ∀ c ∈ joinSpTail ts, (∃ t ∈ ts, c ∈ t) ∨ c = ' '
  | [] => by simp [joinSpTail]
  | t :: ts => by
    intro c hc
    simp only [joinSpTail, List.mem_cons, List.mem_append] at hc
    rcases hc with hc | hc | hc
    · exact Or.inr hc
    · exact Or.inl ⟨t, List.mem_cons_self t ts, hc⟩
    · rcases mem_joinSpTail ts c hc with ⟨t', ht', hct⟩ | hc2
      · exact Or.inl ⟨t', List.mem_cons_of_mem t ht', hct⟩
      · exact Or.inr hc2

theorem mem_joinSp (ts : List (List Char)) :
    ∀ c ∈ joinSp ts, (∃ t ∈ ts, c ∈ t) ∨ c = ' ' := by
  intro c hc
  match ts with
  | [] => simp [joinSp] at hc
  | t :: ts =>
    simp only [joinSp, List.mem_append] at hc
    rcases hc with hc | hc
    · exact Or.inl ⟨t, List.mem_cons_self t ts, hc⟩
    · rcases mem_joinSpTail ts c hc with ⟨t', ht', hct⟩ | hc2
      · exact Or.inl ⟨t', List.mem_cons_of_mem t ht', hct⟩
      · exact Or.inr hc2

theorem map_toLower_id (l : List Char)
    (hl : ∀ c ∈ l, isLowerAlnum c = true ∨ c = ' ') :
    l.map Char.toLower = l := by
  induction l with
  | nil => rfl
  | cons c l ih =>
    rw [List.map_cons]
    have hc : c.toLower = c := by
      rcases hl c (List.mem_cons_self c l) with h | h
      · exact isLowerAlnum_toLower h
      · subst h; decide
    rw [hc, ih fun d hd => hl d (List.mem_cons_of_mem c hd)]

theorem subNonAlnum_alnum_append :
    ∀ (t l : List Char), (∀ c ∈ t, isLowerAlnum c = true) →
      subNonAlnum (t ++ l) = t ++ subNonAlnum l := by
  intro t
  induction t with
  | nil => intro l _; rfl
  | cons c t' ih =>
    intro l ht
    have hc : isLowerAlnum c = true := ht c (List.mem_cons_self c t')
    have ht' : ∀ d ∈ t', isLowerAlnum d = true :=
      fun d hd => ht d (List.mem_cons_of_mem c hd)
    cases hshape : t' ++ l with
    | nil =>
      obtain ⟨h1, h2⟩ := List.append_eq_nil.mp hshape
      subst h1; subst h2
      simp only [List.cons_append, List.append_nil, List.nil_append]
      simp [subNonAlnum, hc]
    | cons d rest =>
      rw [List.cons_append, hshape]
      simp only [subNonAlnum, if_pos hc]
      rw [← hshape, ih l ht']
      simp

theorem subNonAlnum_space_cons (l : List Char)
    (hl : l = [] ∨ ∃ d rest, l = d :: rest ∧ isLowerAlnum d = true) :
    subNonAlnum (' ' :: l) = ' ' :: subNonAlnum l := by
  rcases hl with h | ⟨d, rest, hdr, hd⟩
  · subst h; decide
  · subst hdr
    simp [subNonAlnum, hd]

theorem subNonAlnum_joinSpTail (ts : List (List Char))
    (hg : ∀ t ∈ ts, t ≠ [] ∧ ∀ c ∈ t, isLowerAlnum c = true) :
    subNonAlnum (joinSpTail ts) = joinSpTail ts := by
  induction ts with
  | nil => rfl
  | cons t ts ih =>
    obtain ⟨htne, htalnum⟩ := hg t (List.mem_cons_self t ts)
    rcases List.exists_cons_of_ne_nil htne with ⟨d, t', rfl⟩
    simp only [joinSpTail]
    have hstep : subNonAlnum (' ' :: (d :: t' ++ joinSpTail ts)) =
        ' ' :: subNonAlnum (d :: t' ++ joinSpTail ts) := by
      apply subNonAlnum_space_cons
      exact Or.inr ⟨d, t' ++ joinSpTail ts, by simp,
        htalnum d (List.mem_cons_self d t')⟩
    rw [hstep, subNonAlnum_alnum_append (d :: t') (joinSpTail ts) htalnum,
      ih fun u hu => hg u (List.mem_cons_of_mem _ hu)]

theorem subNonAlnum_joinSp (ts : List (List Char))
    (hgood : ∀ t ∈ ts, t ≠ [] ∧ ∀ c ∈ t, isLowerAlnum c = true) :
    subNonAlnum (joinSp ts) = joinSp ts := by
  match ts with
  | [] => rfl
  | t :: ts =>
    simp only [joinSp]
    rw [subNonAlnum_alnum_append t (joinSpTail ts)
      (hgood t (List.mem_cons_self t ts)).2]
    rw [subNonAlnum_joinSpTail ts fun u hu => hgood u (List.mem_cons_of_mem t hu)]

theorem foldrSplit_token :
    ∀ (t : List Char) (s : List Char) (ss : List (List Char)),
      (∀ c ∈ t, c.isWhitespace = false) →
      t.foldr splitStep (s :: ss) = (t ++ s) :: ss := by
  intro t
  induction t with
  | nil => intro s ss _; rfl
  | cons c t' ih =>
    intro s ss ht
    have hcw : c.isWhitespace = false := ht c (List.mem_cons_self c t')
    rw [List.foldr_cons, ih s ss fun d hd => ht d (List.mem_cons_of_mem c hd)]
    simp [splitStep, hcw]

theorem foldrSplit_joinSpTail :
    ∀ (ts : List (List Char)),
      (∀ t ∈ ts, t ≠ [] ∧ ∀ c ∈ t, isLowerAlnum c = true) →
      (joinSpTail ts).foldr splitStep [[]] = [] :: ts
  | [] => by intro _; rfl
  | t :: ts => by
    intro hgood
    obtain ⟨htne, htalnum⟩ := hgood t (List.mem_cons_self t ts)
    simp only [joinSpTail]
    rw [List.foldr_cons, List.foldr_append,
      foldrSplit_joinSpTail ts fun u hu => hgood u (List.mem_cons_of_mem t hu),
      foldrSplit_token t [] ts fun c hc => isLowerAlnum_not_ws (htalnum c hc)]
    unfold splitStep
    rw [if_pos (by decide)]
    simp

theorem splitWs_joinSp (ts : List (List Char))
    (hgood : ∀ t ∈ ts, t ≠ [] ∧ ∀ c ∈ t, isLowerAlnum c = true) :
    splitWs (joinSp ts) = ts := by
  match ts with
  | [] => rfl
  | t :: ts =>
    obtain ⟨htne, htalnum⟩ := hgood t (List.mem_cons_self t ts)
    unfold splitWs
    simp only [joinSp]
    rw [List.foldr_append,
      foldrSplit_joinSpTail ts fun u hu => hgood u (List.mem_cons_of_mem t hu),
      foldrSplit_token t [] ts fun c hc => isLowerAlnum_not_ws (htalnum c hc)]
    rw [List.append_nil]
    rw [List.filter_cons_of_pos (by simpa using htne)]
    congr 1
    apply List.filter_eq_self.mpr
    intro u hu
    simpa using (hgood u (List.mem_cons_of_mem t hu)).1

theorem normChars_idem (cs : List Char) :
    normChars (normChars cs) = normChars cs := by
  unfold normChars
  set ts := splitWs (subNonAlnum (cs.map Char.toLower)) with hts
  have hgood : ∀ t ∈ ts, t ≠ [] ∧ ∀ c ∈ t, isLowerAlnum c = true := by
    intro t ht
    exact splitWs_good _ (mem_subNonAlnum _) t ht
  have hchars : ∀ c ∈ joinSp ts, isLowerAlnum c = true ∨ c = ' ' := by
    intro c hc
    rcases mem_joinSp ts c hc with ⟨t, ht, hct⟩ | hsp
    · exact Or.inl ((hgood t ht).2 c hct)
    · exact Or.inr hsp
  rw [map_toLower_id (joinSp ts) hchars, subNonAlnum_joinSp ts hgood,
    splitWs_joinSp ts hgood]

/-! ## Claim theorems -/

/-- Claim C1: the AI keyword classification is positive if and only if
some primary pattern matches the combined normalized title+description
text, or some secondary pattern matches and some context pattern matches;
in particular texts containing only a secondary-tier term ("Ethics in
Technology", "Autonomous Vehicles") with no AI-context term are negative,
while "Ethics of AI" is positive. -/
theorem c1_ai_context_gating :
    (∀ title description : String,
      AiAnalysis.keyword_match title description =
        (AiAnalysis.matches_any (normalize_text (title ++ " " ++ description))
            AiAnalysis.PRIMARY_PATTERNS ||
          (AiAnalysis.matches_any (normalize_text (title ++ " " ++ description))
              AiAnalysis.SECONDARY_PATTERNS &&
            AiAnalysis.matches_any (normalize_text (title ++ " " ++ description))
              AiAnalysis.CONTEXT_PATTERNS))) ∧
    AiAnalysis.keyword_match "Ethics in Technology" "" = false ∧
    AiAnalysis.keyword_match "Autonomous Vehicles" "" = false ∧
    AiAnalysis.keyword_match "Ethics of AI" "" = true :=
  ⟨fun _ _ => rfl, by decide, by decide, by decide⟩

/-- Claim C2: with fuzzy matching disabled, the pipeline flag of every
record equals the rules-only match, for every scorer, phrase list and
threshold. -/
theorem c2_fuzzy_disabled_flag_eq_rule_match :
    ∀ (scorefn : String → String → Int) (phrases : List String)
      (threshold : Int) (r : CourseRow),
      rowFlag true scorefn phrases threshold r = rowMatched r := by
  intro scorefn phrases threshold r
  simp [rowFlag]

/-- Claim C3: the fuzzy decision is monotone in the threshold — for a
fixed scorer, phrase list and record, a record fuzzy-classified at a
higher threshold is also fuzzy-classified at any lower threshold. -/
theorem c3_fuzzy_threshold_monotone :
    ∀ (scorefn : String → String → Int) (phrases : List String)
      (t1 t2 : Int) (r : CourseRow),
      t1 ≤ t2 →
      rowFuzzy scorefn phrases t2 r = true →
      rowFuzzy scorefn phrases t1 r = true := by
  intro scorefn phrases t1 t2 r h12 h2
  simp only [rowFuzzy, fuzzyDecision, ge_iff_le, decide_eq_true_eq] at h2 ⊢
  exact le_trans h12 h2

/-- Witness for C3 at a concrete scorer, record and threshold pair. -/
theorem c3_fuzzy_threshold_monotone_witness :
    (80 : Int) ≤ 85 ∧
    rowFuzzy (fun _ _ => 90) ["machine learning"] 80
      ⟨"CS", "470", "Artificial Intelligence", ""⟩ = true :=
  ⟨by decide,
    c3_fuzzy_threshold_monotone (fun _ _ => 90) ["machine learning"] 80 85
      ⟨"CS", "470", "Artificial Intelligence", ""⟩ (by decide) (by decide)⟩

/-- Claim C4: `normalize_text` is idempotent — normalizing an already
normalized string returns it unchanged, for every input string. -/
theorem c4_normalize_text_idempotent :
    ∀ s : String, normalize_text (normalize_text s) = normalize_text s :=
  fun s => congrArg String.mk (normChars_idem s.data)

/-- Claim C5: the filtered subset view contains only rows whose flag is
true; a `(prefix, number)` key appears in it iff some input row with that
key is flagged; keys are pairwise distinct (each course appears at most
once); and the view is sorted by `(prefix, number)`. -/
theorem c5_filtered_subset :
    ∀ (flag : CourseRow → Bool) (rows : List CourseRow),
      (∀ r ∈ subsetRows flag rows, flag r = true) ∧
      (∀ k : String × String,
        (∃ r ∈ subsetRows flag rows, rowKey r = k) ↔
          ∃ r ∈ rows, rowKey r = k ∧ flag r = true) ∧
      (subsetRows flag rows).Pairwise (fun a b => rowKey a ≠ rowKey b) ∧
      (subsetRows flag rows).Sorted keyRel := by
  intro flag rows
  refine ⟨?_, ?_, ?_, List.sorted_insertionSort keyRel _⟩
  · intro r hr
    simp only [subsetRows] at hr
    have h1 : r ∈ dedupByKey [] (rows.filter flag) :=
      (List.mem_insertionSort keyRel).mp hr
    exact (List.mem_filter.mp (dedupByKey_subset [] _ r h1)).2
  · intro k
    simp only [subsetRows]
    constructor
    · rintro ⟨r, hr, hrk⟩
      have h1 : r ∈ dedupByKey [] (rows.filter flag) :=
        (List.mem_insertionSort keyRel).mp hr
      rcases (exists_key_dedupByKey k (rows.filter flag) []).mp ⟨r, h1, hrk⟩ with
        ⟨-, r', hr', hrk'⟩
      obtain ⟨hmem, hflag⟩ := List.mem_filter.mp hr'
      exact ⟨r', hmem, hrk', hflag⟩
    · rintro ⟨r, hr, hrk, hflag⟩
      have hx : ∃ x ∈ dedupByKey [] (rows.filter flag), rowKey x = k :=
        (exists_key_dedupByKey k _ []).mpr
          ⟨List.not_mem_nil k, r, List.mem_filter.mpr ⟨hr, hflag⟩, hrk⟩
      rcases hx with ⟨x, hxd, hxk⟩
      exact ⟨x, (List.mem_insertionSort keyRel).mpr hxd, hxk⟩
  · have hpw := (pairwise_keys_dedupByKey (rows.filter flag) []).1
    exact ((List.perm_insertionSort keyRel _).pairwise_iff
      (fun hxy he => hxy he.symm)).mpr hpw

/-- Claim C6: the ethics classifier (in both `ethics_analysis.py` and the
full `ethics_filter.py` matcher) returns true iff some title pattern
matches the title or some description pattern matches the description,
and the title "Introduction to Ethics" matches by title alone. -/
theorem c6_ethics_match_title_or_description :
    (∀ title description : Option String,
      EthicsAnalysis.EthicsMatcher.build.is_match title description =
        (EthicsAnalysis.TITLE_PATTERNS.any (fun p => searchCI p (title.getD "")) ||
          EthicsAnalysis.DESCRIPTION_PATTERNS.any
            (fun p => searchCI p (description.getD "")))) ∧
    (∀ title description : Option String,
      (EthicsFilter.EthicsMatcher.build true).is_match title description =
        (EthicsFilter.TITLE_PATTERNS.any (fun p => searchCI p (title.getD "")) ||
          EthicsFilter.DESCRIPTION_PATTERNS.any
            (fun p => searchCI p (description.getD "")))) ∧
    EthicsAnalysis.EthicsMatcher.build.is_match (some "Introduction to Ethics") none = true ∧
    (EthicsFilter.EthicsMatcher.build true).is_match
      (some "Introduction to Ethics") none = true := by
  refine ⟨?_, ?_, by decide, by decide⟩
  · intro title description
    simp only [EthicsAnalysis.EthicsMatcher.is_match, EthicsAnalysis.EthicsMatcher.build]
    cases hb : EthicsAnalysis.TITLE_PATTERNS.any (fun p => searchCI p (title.getD "")) <;>
      simp [hb]
  · intro title description
    simp only [EthicsFilter.EthicsMatcher.is_match, EthicsFilter.EthicsMatcher.build,
      if_true, List.isEmpty_iff]
    cases hb : EthicsFilter.TITLE_PATTERNS.any (fun p => searchCI p (title.getD "")) <;>
      simp [hb, EthicsFilter.DESCRIPTION_PATTERNS]

/-- Claim C7: the reason string of every record is the comma-joined,
lexicographically strictly sorted, duplicate-free set of labels of the
rule patterns matching the record's normalized text, and is empty exactly
when no rule pattern matched — in particular a record flagged only via
fuzzy matching (no rule hits) keeps an empty reason. -/
theorem c7_reason_string :
    ∀ r : CourseRow,
      ruleReason (rowTextNorm r) =
        joinComma (sortedDedup (ruleHits (rowTextNorm r))) ∧
      (sortedDedup (ruleHits (rowTextNorm r))).Pairwise (· < ·) ∧
      (∀ s : String,
        s ∈ sortedDedup (ruleHits (rowTextNorm r)) ↔ s ∈ ruleHits (rowTextNorm r)) ∧
      (ruleReason (rowTextNorm r) = "" ↔ ruleHits (rowTextNorm r) = []) ∧
      (∀ (scorefn : String → String → Int) (phrases : List String) (t : Int),
        ruleHits (rowTextNorm r) = [] →
        rowFlag false scorefn phrases t r = rowFuzzy scorefn phrases t r) := by
  intro r
  refine ⟨ruleReason_eq_joinComma _, pairwise_lt_sortedDedup _,
    fun s => mem_sortedDedup, ruleReason_empty_iff _, ?_⟩
  intro scorefn phrases t hempty
  simp [rowFlag, rowMatched, hempty]

/-- Witness for C7 at a record with no rule hits. -/
theorem c7_reason_string_witness :
    ruleHits (rowTextNorm ⟨"PHIL", "100", "Basket Weaving", "weaving baskets"⟩) = [] ∧
    rowFlag false (fun _ _ => 0) [] 85
        ⟨"PHIL", "100", "Basket Weaving", "weaving baskets"⟩ =
      rowFuzzy (fun _ _ => 0) [] 85
        ⟨"PHIL", "100", "Basket Weaving", "weaving baskets"⟩ :=
  ⟨by decide,
    (c7_reason_string ⟨"PHIL", "100", "Basket Weaving", "weaving baskets"⟩).2.2.2.2
      (fun _ _ => 0) [] 85 (by decide)⟩

/-- Claim C8 counterexample: at threshold 0 (a value the 0–100 scale
admits), the fuzzy decision on the empty normalized text is true, because
the short-circuit score 0 still satisfies `0 >= 0`. -/
theorem c8_empty_text_counterexample :
    fuzzyDecision (fun _ _ => 0) "" ["machine learning"] 0 = true := by decide

/-- Claim C8 (amended): on the empty normalized text the fuzzy score is 0
independently of the scorer and the phrase list (no similarity is
computed), so the fuzzy decision is false for every positive threshold —
but not for thresholds at or below 0. -/
theorem c8_empty_text_amended :
    (∀ (scorefn : String → String → Int) (phrases : List String),
      max_fuzzy_score scorefn "" phrases = 0) ∧
    (∀ (scorefn : String → String → Int) (phrases : List String) (t : Int),
      0 < t → fuzzyDecision scorefn "" phrases t = false) := by
  refine ⟨fun _ _ => rfl, fun scorefn phrases t ht => ?_⟩
  simp only [fuzzyDecision, max_fuzzy_score, if_pos rfl, ge_iff_le,
    decide_eq_false_iff_not, not_le]
  exact ht

/-- Witness for the amended C8 at the default threshold 85. -/
theorem c8_empty_text_amended_witness :
    (0 : Int) < 85 ∧
    fuzzyDecision (fun _ _ => 0) "" ["machine learning"] 85 = false :=
  ⟨by decide, c8_empty_text_amended.2 (fun _ _ => 0) ["machine learning"] 85 (by decide)⟩

/-- Claim C9: contrary to the claim and to the repository's own test
`test_normalize_text_ai_punctuation`, `normalize_text "A.I."` evaluates to
`"a i"` — each period becomes a separator space and the two single-letter
tokens stay separate. -/
theorem c9_normalize_ai_evaluates_to_a_i :
    normalize_text "A.I." = "a i" := by decide

/-- Claim C10: a matcher built with `include_description = False` depends
only on the title — its result is unchanged under any two descriptions,
and it is true iff some title pattern matches the title. -/
theorem c10_title_only_matcher :
    (∀ title d1 d2 : Option String,
      (EthicsFilter.EthicsMatcher.build false).is_match title d1 =
        (EthicsFilter.EthicsMatcher.build false).is_match title d2) ∧
    (∀ title description : Option String,
      (EthicsFilter.EthicsMatcher.build false).is_match title description =
        EthicsFilter.TITLE_PATTERNS.any (fun p => searchCI p (title.getD ""))) := by
  have h2 : ∀ title description : Option String,
      (EthicsFilter.EthicsMatcher.build false).is_match title description =
        EthicsFilter.TITLE_PATTERNS.any (fun p => searchCI p (title.getD "")) := by
    intro title description
    simp only [EthicsFilter.EthicsMatcher.is_match, EthicsFilter.EthicsMatcher.build,
      if_false]
    cases hb : EthicsFilter.TITLE_PATTERNS.any (fun p => searchCI p (title.getD "")) <;>
      simp [hb]
  exact ⟨fun title d1 d2 => (h2 title d1).trans (h2 title d2).symm, h2⟩

example : normalize_text "A.I." = "a i" := by decide
example : normalize_text "Ethics in Technology" = "ethics in technology" := by decide
example : normalize_text "  Hello--World!  42 " = "hello world 42" := by decide
example : reSearch ["ai"] (normalize_text "we said so").data = false := by decide
example : reSearch ["ai"] (normalize_text "Ethics of A.I?.").data = false := by decide
example : reSearch ["ai"] (normalize_text "intro to ai today").data = true := by decide
